import Mathlib

/-!
# Verification of the character-level text-generation notebooks

Shallow embedding, in Lean 4, of the data-preparation and sampling code of
the `text_generation` repository (the PyTorch character-RNN notebook
`torch_model.ipynb`, the Keras notebook `lstm-model-1.ipynb`, and the unnamed
Keras vectorization notebook).

Conventions of the embedding:
* numpy 1-D integer arrays are `List Nat`; 2-D arrays are `List (List Nat)`
  (row major); 3-D arrays add one more list layer; boolean arrays use `Bool`.
* `arr[a:b]` is `(arr.drop a).take (b - a)`; a guarded element access
  `arr[i]` is `List.getD`.
* Probability vectors of the PyTorch sampler are `List ℚ` (the claims under
  study concern the discrete restriction / renormalisation structure, which
  is exact arithmetic); the Keras temperature helper, whose body is built
  from `np.log` and `np.exp`, is embedded over `ℝ`.
* Random draws (`np.random.choice`) are modelled by passing the drawn
  position explicitly: the sampler hands a candidate list and a weight
  vector to an oracle, and an actual numpy draw always returns the element
  at some position `r < candidates.length`.
-/

namespace TorchModel

/-- Python `range(0, stop, step)` for `step ≥ 1`: the multiples of `step`
below `stop`, in increasing order. -/
def pyRange (stop step : Nat) : List Nat :=
  (List.range ((stop + step - 1) / step)).map (fun k => k * step)

/-- One row of `numpy.reshape`: row `r` of the row-major reshape of `l`
into rows of width `cols`. -/
def reshapeRow (l : List Nat) (cols r : Nat) : List Nat :=
  (l.drop (r * cols)).take cols

/-- `numpy.reshape (rows, cols)` of a flat row-major array (the source uses
`arr.reshape((n_seqs, -1))`, whose inferred column count is
`len(arr) / n_seqs`). -/
def reshape2 (l : List Nat) (rows cols : Nat) : List (List Nat) :=
  (List.range rows).map (reshapeRow l cols)

/-- `get_batches(arr, n_seqs, n_steps)` from `torch_model.ipynb`:

    batch_size = n_seqs * n_steps
    n_batches = len(arr)//batch_size
    arr = arr[:n_batches * batch_size]
    arr = arr.reshape((n_seqs, -1))
    for n in range(0, arr.shape[1], n_steps):
        x = arr[:, n:n+n_steps]
        y = np.zeros_like(x)
        try:
            y[:, :-1], y[:, -1] = x[:, 1:], arr[:, n+n_steps]
        except IndexError:
            y[:, :-1], y[:, -1] = x[:, 1:], arr[:, 0]
        yield x, y

The generator is embedded as the list of the yielded pairs, in order.
The column access `arr[:, n+n_steps]` raises `IndexError` exactly when
`n + n_steps` is not a valid column index, i.e. when `cols ≤ n + n_steps`
(the right-hand side of the assignment is evaluated first, so nothing has
been written to `y` when the exception fires); the embedding folds the
`try/except` into the choice of the wrap column.  Each row of `y` is its
row of `x` shifted left by one with the wrap-column entry appended
(`y = np.zeros_like(x)`, then `y[:, :-1] = x[:, 1:]`, `y[:, -1] = column`). -/
def get_batches (arr : List Nat) (n_seqs n_steps : Nat) :
    List (List (List Nat) × List (List Nat)) :=
  let batch_size := n_seqs * n_steps
  let n_batches := arr.length / batch_size
  let keep := arr.take (n_batches * batch_size)
  let cols := keep.length / n_seqs
  let rows := reshape2 keep n_seqs cols
  (pyRange cols n_steps).map (fun n =>
    let x := rows.map (fun row => (row.drop n).take n_steps)
    let wrapCol := if n + n_steps < cols then n + n_steps else 0
    let y := rows.map (fun row =>
      ((row.drop n).take n_steps).drop 1 ++ [row.getD wrapCol 0])
    (x, y))

/-- The scatter step of `one_hot_encode`: on the zero matrix of shape
`(len(flat), n_labels)` the fancy-indexing assignment
`one_hot[np.arange(m), arr.flatten()] = 1.` sets, in each row `i`, the
single position `flat[i]` to one.  (When `flat[i] ≥ n_labels` numpy would
raise `IndexError`; `List.set` is then a no-op, and the claims under study
restrict all entries to `[0, n_labels)`.) -/
def one_hot_flat (flat : List Nat) (n_labels : Nat) : List (List Nat) :=
  flat.map (fun v => (List.replicate n_labels 0).set v 1)

/-- `numpy.reshape (d0, d1, ·)` of a list of innermost rows. -/
def reshape3 (l : List (List Nat)) (d0 d1 : Nat) : List (List (List Nat)) :=
  (List.range d0).map (fun i => (l.drop (i * d1)).take d1)

/-- `one_hot_encode(arr, n_labels)` from `torch_model.ipynb`:

    one_hot = np.zeros((np.multiply(*arr.shape), n_labels), dtype=np.float32)
    one_hot[np.arange(one_hot.shape[0]), arr.flatten()] = 1.
    one_hot = one_hot.reshape((*arr.shape, n_labels))

`arr.shape` of the 2-D numpy input is `(arr.length, w)` with `w` the common
row width; the embedding reads the width off the first row, as every row of
a rectangular array has the first row's length. -/
def one_hot_encode (arr : List (List Nat)) (n_labels : Nat) :
    List (List (List Nat)) :=
  reshape3 (one_hot_flat arr.flatten n_labels) arr.length arr.headI.length

/-- `chars = tuple(set(text))` from `torch_model.ipynb`: an enumeration,
without repetition, of the distinct symbols of the text (the embedding
fixes first-occurrence order; `set` iteration order is arbitrary but also
repetition-free and exhaustive). -/
def chars (text : List Char) : List Char :=
  text.dedup

/-- `int2char = dict(enumerate(chars))`: position `i` of the vocabulary
tuple.  Out-of-range indices, a `KeyError` in the source, default. -/
def int2char (cs : List Char) (i : Nat) : Char :=
  cs.getD i (Char.ofNat 0)

/-- `char2int = {ch: ii for ii, ch in int2char.items()}`: since the
vocabulary tuple is repetition-free, the dictionary sends each vocabulary
symbol to its unique position, which is its first index in the tuple. -/
def char2int (cs : List Char) (c : Char) : Nat :=
  cs.indexOf c

/-- Descending comparison on indexed probabilities, the sort order of the
`topk` embedding. -/
def probGe (a b : Nat × ℚ) : Prop :=
  b.2 ≤ a.2

instance : DecidableRel probGe := fun a b => inferInstanceAs (Decidable (b.2 ≤ a.2))

instance : IsTotal (Nat × ℚ) probGe := ⟨fun a b => le_total b.2 a.2⟩

instance : IsTrans (Nat × ℚ) probGe := ⟨fun _ _ _ h1 h2 => le_trans h2 h1⟩

/-- `p, top_ch = p.topk(top_k)` from `CharRNN.predict`: the `k` largest
probabilities together with their indices.  Embedded by sorting the
indexed entries by descending probability and keeping the first `k`;
any tie order is a valid `topk` result, and the properties proved below
(sizes, and dominance of every kept entry over every dropped one) hold
for the embedded choice. -/
def torch_topk (p : List ℚ) (k : Nat) : List ℚ × List Nat :=
  let sorted := List.insertionSort probGe p.enum
  ((sorted.take k).map Prod.snd, (sorted.take k).map Prod.fst)

/-- The candidate construction of `CharRNN.predict` after
`p = F.softmax(out).data`:

    if top_k is None:
        top_ch = np.arange(len(self.chars))
    else:
        p, top_ch = p.topk(top_k)
        top_ch = top_ch.numpy().squeeze()

Returns the elements of the weight vector `p` and of the candidate index
array `top_ch` as they stand at the `np.random.choice` call.  The arrays
carry the listed entries regardless of the `.squeeze()`; what the squeeze
changes is their dimensionality (a length-one axis collapses to a 0-d
array), which decides whether `np.random.choice` accepts or raises —
that acceptance condition is `choice_ok` below. -/
def predict_candidates (n_chars : Nat) (p : List ℚ) (top_k : Option Nat) :
    List ℚ × List Nat :=
  match top_k with
  | none => (p, List.range n_chars)
  | some k => torch_topk p k

/-- The probability vector handed to `np.random.choice`: `p/p.sum()`. -/
def predict_weights (n_chars : Nat) (p : List ℚ) (top_k : Option Nat) :
    List ℚ :=
  let q := (predict_candidates n_chars p top_k).1
  q.map (fun v => v / q.sum)

/-- The character selected on the success path of
`char = np.random.choice(top_ch, p=p/p.sum())` followed by
`self.int2char[char]`, the random draw being modelled by the drawn
position `r` (an actual numpy draw always has `r < top_ch.length`).
`predict_choice` below adds the dimensionality checks under which the
`np.random.choice` call raises instead of selecting. -/
def predict (cs : List Char) (p : List ℚ) (top_k : Option Nat) (r : Nat) :
    Char :=
  int2char cs ((predict_candidates cs.length p top_k).2.getD r 0)

/-- The precondition under which the `np.random.choice` call of
`CharRNN.predict` succeeds.  With `top_k = k`, `p.topk(k)` raises for
`k > len(p)`, and `top_ch.numpy().squeeze()` / `p.numpy().squeeze()`
collapse the shape-`(1, k)` results to 0-d arrays when `k = 1` (and to
empty arrays when `k = 0`), on which `np.random.choice` raises; so the
call returns exactly when `2 ≤ k ≤ len(p)`.  With `top_k = None`,
`top_ch = np.arange(len(chars))` is always 1-d, but `p.numpy().squeeze()`
of the shape-`(1, len(p))` softmax row is 0-d when `len(p) = 1` (empty
when `len(p) = 0`), and `np.random.choice` further requires the weight
vector to match the population length; so the call returns exactly when
`2 ≤ len(p)` and `len(chars) = len(p)`.  (The remaining numpy checks —
nonnegative weights summing to one — hold for a renormalised softmax
row.) -/
def choice_ok (n_chars : Nat) (p : List ℚ) (top_k : Option Nat) : Prop :=
  match top_k with
  | none => 2 ≤ p.length ∧ n_chars = p.length
  | some k => 2 ≤ k ∧ k ≤ p.length

instance (n_chars : Nat) (p : List ℚ) (top_k : Option Nat) :
    Decidable (choice_ok n_chars p top_k) :=
  match top_k with
  | none => inferInstanceAs (Decidable (2 ≤ p.length ∧ n_chars = p.length))
  | some k => inferInstanceAs (Decidable (2 ≤ k ∧ k ≤ p.length))

/-- `CharRNN.predict` including the outcome of the `np.random.choice`
call: `some` sampled character on the success path, `none` when the
squeezed arrays make the call (or `p.topk`) raise — `top_k = 1`, or a
width-one softmax row with `top_k = None` — and no character is
returned. -/
def predict_choice (cs : List Char) (p : List ℚ) (top_k : Option Nat)
    (r : Nat) : Option Char :=
  if choice_ok cs.length p top_k
  then some (predict cs p top_k r)
  else none

/-- Abstraction of a trained `CharRNN` for the sampling loop: the
vocabulary tuple, the composite
one-hot-encode / LSTM forward / linear / softmax step (from an input
symbol index and a hidden state to the output probability vector and the
next hidden state), and the `init_hidden(1)` state. -/
structure Net (H : Type) where
  chars : List Char
  forward : Nat → H → List ℚ × H
  h0 : H

/-- `CharRNN.predict(char, h, top_k)`: encode the input symbol through
`char2int`, run the network step, and sample from the (possibly
truncated) output distribution; returns the predicted character and the
new hidden state. -/
def net_predict {H : Type} (net : Net H) (top_k : Option Nat) (c : Char)
    (h : H) (r : Nat) : Char × H :=
  let ph := net.forward (char2int net.chars c) h
  (predict net.chars ph.1 top_k r, ph.2)

/-- The priming loop of `sample`:

    for ch in prime:
        char, h = net.predict(ch, h, top_k=top_k)

Threads the hidden state through every priming character, keeping only the
last predicted character; `t` counts the random draws consumed so far.  On
an empty prime the source leaves `char` unbound and the later
`chars.append(char)` raises `NameError`; the `[]` equation is never reached
from `sample`, which is only invoked on a nonempty prime. -/
def feedPrime {H : Type} (net : Net H) (top_k : Option Nat)
    (rnd : Nat → Nat) : List Char → H → Nat → Char × H × Nat
  | [], h, t => (Char.ofNat 0, h, t)
  | [c], h, t =>
      let ch2 := net_predict net top_k c h (rnd t)
      (ch2.1, ch2.2, t + 1)
  | c :: c2 :: rest, h, t =>
      let ch2 := net_predict net top_k c h (rnd t)
      feedPrime net top_k rnd (c2 :: rest) ch2.2 (t + 1)

/-- The generation loop of `sample`:

    for ii in range(size):
        char, h = net.predict(chars[-1], h, top_k=top_k)
        chars.append(char)

`last` is `chars[-1]`, the most recently appended character. -/
def genLoop {H : Type} (net : Net H) (top_k : Option Nat)
    (rnd : Nat → Nat) : Nat → Char → H → Nat → List Char
  | 0, _, _, _ => []
  | Nat.succ size, last, h, t =>
      let ch2 := net_predict net top_k last h (rnd t)
      ch2.1 :: genLoop net top_k rnd size ch2.1 ch2.2 (t + 1)

/-- `sample(net, size, prime, top_k)` from `torch_model.ipynb`:

    chars = [ch for ch in prime]
    h = net.init_hidden(1)
    for ch in prime:
        char, h = net.predict(ch, h, top_k=top_k)
    chars.append(char)
    for ii in range(size):
        char, h = net.predict(chars[-1], h, top_k=top_k)
        chars.append(char)
    return ''.join(chars)

The returned string is embedded as its list of characters.  On an empty
prime the source raises `NameError` (`char` is unbound at the first
`append`); the embedding returns `[]` there and every theorem about
`sample` assumes a nonempty prime. -/
def sample {H : Type} (net : Net H) (size : Nat) (prime : List Char)
    (top_k : Option Nat) (rnd : Nat → Nat) : List Char :=
  match prime with
  | [] => []
  | c :: rest =>
      let fed := feedPrime net top_k rnd (c :: rest) net.h0 0
      (c :: rest) ++ fed.1 :: genLoop net top_k rnd size fed.1 fed.2.1 fed.2.2

/-- A concrete two-symbol network over the trivial hidden state, used as
the explicit input of closed instances below.  Its width-two softmax
output satisfies the `np.random.choice` dimensionality precondition at
every step (`choice_ok` holds with `top_k = None`), so the source
`sample` actually returns on it. -/
def netB : Net Unit :=
  { chars := ['a', 'b'], forward := fun _ _ => ([1, 1], ()), h0 := () }

end TorchModel

namespace LSTM1

/-- The probability vector actually handed to `np.random.multinomial` by
`sample(preds, temperature)` of `lstm-model-1.ipynb`:

    preds = np.asarray(preds).astype('float64')
    preds = np.log(preds)/temperature
    exp_preds = np.exp(preds)
    probas = np.random.multinomial(1, preds, 1)

At the `multinomial` call the variable `preds` holds the
temperature-scaled log-probabilities: `exp_preds` is computed but never
used. -/
noncomputable def sample_pvals (preds : List ℝ) (temperature : ℝ) :
    List ℝ :=
  preds.map (fun v => Real.log v / temperature)

/-- The unused `exp_preds = np.exp(preds)` of the same function. -/
noncomputable def exp_preds (preds : List ℝ) (temperature : ℝ) : List ℝ :=
  (sample_pvals preds temperature).map Real.exp

/-- The distribution the claim describes (and the canonical form of this
helper): the exponentials of the scaled log-probabilities, renormalised.
Modelled from the spec: the source never forms this vector. -/
noncomputable def claimed_dist (preds : List ℝ) (temperature : ℝ) :
    List ℝ :=
  (exp_preds preds temperature).map
    (fun v => v / (exp_preds preds temperature).sum)

/-- `chars = sorted(list(set(text)))` from `lstm-model-1.ipynb`: the
distinct symbols of the text in sorted order. -/
def sorted_chars (text : List Char) : List Char :=
  List.insertionSort (fun a b => a ≤ b) text.dedup

/-- `char_indices= dict((c,i) for i,c in enumerate(chars))` from
`lstm-model-1.ipynb`: since the sorted vocabulary is repetition-free,
the dictionary sends each vocabulary symbol to its unique position,
which is its first index in the list. -/
def char_indices (cs : List Char) (c : Char) : Nat :=
  cs.indexOf c

/-- `indices_char= dict((i,c) for i,c in enumerate(chars))` from
`lstm-model-1.ipynb`: position `i` of the sorted vocabulary.
Out-of-range indices, a `KeyError` in the source, default. -/
def indices_char (cs : List Char) (i : Nat) : Char :=
  cs.getD i (Char.ofNat 0)

end LSTM1

namespace Unnamed

/-- The inner vectorization loop of the unnamed Keras notebook, acting on
row `i` of `x` (a `max_len × n_chars` boolean matrix):

    for t, char in enumerate(sentence):
        x[i, t, char_indices[char]] = 1 -/
def innerFill (ci : Char → Nat) (xi : List (List Bool))
    (sentence : List Char) : List (List Bool) :=
  sentence.enum.foldl
    (fun acc tc => acc.set tc.1 ((acc.getD tc.1 []).set (ci tc.2) true))
    xi

/-- The full vectorization loop of the unnamed Keras notebook:

    for i, sentence in enumerate(sentences):
        for t, char in enumerate(sentence):
            x[i, t, char_indices[char]] = 1
        y[i, char_indices[next_chars[i]]]

The last statement of the body is a bare subscript expression: it reads
`y[i][char_indices[next_chars[i]]]` and discards the value, assigning
nothing, so `y` passes through every iteration unchanged. -/
def vectorizeLoop (ci : Char → Nat) (sentences : List (List Char))
    (next_chars : List Char) (x0 : List (List (List Bool)))
    (y0 : List (List Bool)) :
    List (List (List Bool)) × List (List Bool) :=
  sentences.enum.foldl
    (fun acc is =>
      let x := acc.1.set is.1 (innerFill ci (acc.1.getD is.1 []) is.2)
      let _yRead :=
        (acc.2.getD is.1 []).getD (ci (next_chars.getD is.1 (Char.ofNat 0)))
          false
      (x, acc.2))
    (x0, y0)

/-- The vectorization cell of the unnamed Keras notebook:

    x = np.zeros((len(sentences), max_len, len(chars)), dtype=np.bool)
    y = np.zeros((len(sentences), len(chars)), dtype=np.bool)
    for i, sentence in enumerate(sentences): ...  (the loop above) -/
def vectorize (ci : Char → Nat) (max_len n_chars : Nat)
    (sentences : List (List Char)) (next_chars : List Char) :
    List (List (List Bool)) × List (List Bool) :=
  vectorizeLoop ci sentences next_chars
    (List.replicate sentences.length
      (List.replicate max_len (List.replicate n_chars false)))
    (List.replicate sentences.length (List.replicate n_chars false))

end Unnamed

section Sanity

-- arr = 0..12, n_seqs = 2, n_steps = 3: two batches; the second takes the
-- IndexError branch and wraps to column 0.
example :
    TorchModel.get_batches (List.range 13) 2 3 =
      [([[0, 1, 2], [6, 7, 8]], [[1, 2, 3], [7, 8, 9]]),
       ([[3, 4, 5], [9, 10, 11]], [[4, 5, 0], [10, 11, 6]])] := by decide

example : TorchModel.get_batches (List.range 3) 2 2 = [] := by decide

example :
    TorchModel.one_hot_encode [[1, 0], [2, 1]] 3 =
      [[[0, 1, 0], [1, 0, 0]], [[0, 0, 1], [0, 1, 0]]] := by decide

example :
    TorchModel.torch_topk [(1 : ℚ), 4, 2, 1] 2 = ([4, 2], [1, 2]) := by
  decide

example :
    Unnamed.vectorize (fun c => c.toNat - 97) 2 2 [['a', 'b']] ['a'] =
      ([[[true, false], [false, true]]], [[false, false]]) := by decide

end Sanity

namespace TextGenAux

/-- `getD` through `drop`: dropping `n` then reading position `j` reads
position `n + j`. -/
theorem getD_drop {α : Type} (l : List α) (n j : Nat) (d : α) :
    (l.drop n).getD j d = l.getD (n + j) d := by
  simp [List.getD_eq_getElem?_getD, List.getElem?_drop]

/-- `getD` through `take`, inside the kept range. -/
theorem getD_take_lt {α : Type} (l : List α) {m j : Nat} (d : α)
    (hm : j < m) : (l.take m).getD j d = l.getD j d := by
  simp [List.getD_eq_getElem?_getD, List.getElem?_take, hm]

/-- `getD` of a map over `List.range`, inside the range. -/
theorem getD_map_range {α : Type} (f : Nat → α) {r b : Nat} (d : α)
    (hb : b < r) : ((List.range r).map f).getD b d = f b := by
  simp [List.getD_eq_getElem?_getD, List.getElem?_map, List.getElem?_range hb]

/-- An in-bounds `getD` read is a member of the list. -/
theorem getD_mem {α : Type} {l : List α} {n : Nat} (d : α)
    (hn : n < l.length) : l.getD n d ∈ l := by
  rw [List.getD_eq_getElem l d hn]
  exact List.getElem_mem hn

end TextGenAux

namespace TorchModel

/-- The generation loop emits exactly one character per requested step. -/
theorem genLoop_length {H : Type} (net : Net H) (top_k : Option Nat)
    (rnd : Nat → Nat) :
    ∀ (size : Nat) (last : Char) (h : H) (t : Nat),
      (genLoop net top_k rnd size last h t).length = size := by
  intro size
  induction size with
  | zero => intro last h t; rfl
  | succ k ih =>
      intro last h t
      simp only [genLoop, List.length_cons]
      rw [ih]

end TorchModel

/-- C9: a corpus shorter than one full batch (`len(arr) < n_seqs*n_steps`)
yields zero batches and no error: the truncation is empty, the reshape to
`(n_seqs, 0)` succeeds, and the loop body is never entered. -/
theorem get_batches_empty_when_short (arr : List Nat) (n_seqs n_steps : Nat)
    (_hs : 1 ≤ n_seqs) (ht : 1 ≤ n_steps)
    (h : arr.length < n_seqs * n_steps) :
    TorchModel.get_batches arr n_seqs n_steps = [] := by
  have hnb : arr.length / (n_seqs * n_steps) = 0 :=
    Nat.div_eq_of_lt h
  simp only [TorchModel.get_batches, TorchModel.pyRange, hnb, Nat.zero_mul,
    List.take_zero, List.length_nil, Nat.zero_div]
  have hcount : (0 + n_steps - 1) / n_steps = 0 :=
    Nat.div_eq_of_lt (by omega)
  rw [hcount]
  rfl

/-- Witness for C9 at the concrete input `arr = [0, 1, 2]`,
`n_seqs = n_steps = 2`. -/
theorem get_batches_empty_when_short_witness :
    1 ≤ 2 ∧ 1 ≤ 2 ∧ ([0, 1, 2] : List Nat).length < 2 * 2 ∧
      TorchModel.get_batches [0, 1, 2] 2 2 = [] :=
  ⟨by decide, by decide, by decide,
    get_batches_empty_when_short [0, 1, 2] 2 2 (by decide) (by decide)
      (by decide)⟩

namespace TextGenAux

/-- On a repetition-free list, first index and positional read are
mutually inverse: every member's index is in range, index-of composed
with read is the identity on positions, and read composed with index-of
is the identity on members. -/
theorem index_inverse (cs : List Char) (hnd : cs.Nodup) :
    (∀ c ∈ cs, cs.indexOf c < cs.length)
  ∧ (∀ i, i < cs.length → cs.indexOf (cs.getD i (Char.ofNat 0)) = i)
  ∧ (∀ c ∈ cs, cs.getD (cs.indexOf c) (Char.ofNat 0) = c) := by
  refine ⟨?_, ?_, ?_⟩
  · intro c hc
    exact List.indexOf_lt_length.2 hc
  · intro i hi
    have hget : cs.getD i (Char.ofNat 0) = cs.get ⟨i, hi⟩ := by
      rw [List.getD_eq_getElem _ _ hi]
      simp [List.get_eq_getElem]
    rw [hget]
    exact List.get_indexOf hnd ⟨i, hi⟩
  · intro c hc
    have hlt : List.indexOf c cs < cs.length :=
      List.indexOf_lt_length.2 hc
    rw [List.getD_eq_getElem _ _ hlt]
    exact List.indexOf_get hlt

end TextGenAux

/-- C5: both vocabularies of the repository are bijections between the
distinct symbols of the corpus and the contiguous indices `0..V-1`, with
mutually inverse direction maps.  For `torch_model.ipynb`
(`chars`/`int2char`/`char2int`): the tuple is repetition-free and
enumerates exactly the text's symbols, every symbol's index is in
`0..V-1`, index to symbol back to index is the identity on `0..V-1`, and
symbol to index back to symbol is the identity on the corpus symbols.
The same four properties hold for `lstm-model-1.ipynb`'s sorted
vocabulary (`char_indices`/`indices_char` over
`chars = sorted(list(set(text)))`). -/
theorem vocab_bijection (text : List Char) :
    ((TorchModel.chars text).Nodup
  ∧ (∀ c, c ∈ TorchModel.chars text ↔ c ∈ text)
  ∧ (∀ c, c ∈ text →
      TorchModel.char2int (TorchModel.chars text) c <
        (TorchModel.chars text).length)
  ∧ (∀ i, i < (TorchModel.chars text).length →
      TorchModel.char2int (TorchModel.chars text)
        (TorchModel.int2char (TorchModel.chars text) i) = i)
  ∧ (∀ c, c ∈ text →
      TorchModel.int2char (TorchModel.chars text)
        (TorchModel.char2int (TorchModel.chars text) c) = c))
  ∧ ((LSTM1.sorted_chars text).Nodup
  ∧ (∀ c, c ∈ LSTM1.sorted_chars text ↔ c ∈ text)
  ∧ (∀ c, c ∈ text →
      LSTM1.char_indices (LSTM1.sorted_chars text) c <
        (LSTM1.sorted_chars text).length)
  ∧ (∀ i, i < (LSTM1.sorted_chars text).length →
      LSTM1.char_indices (LSTM1.sorted_chars text)
        (LSTM1.indices_char (LSTM1.sorted_chars text) i) = i)
  ∧ (∀ c, c ∈ text →
      LSTM1.indices_char (LSTM1.sorted_chars text)
        (LSTM1.char_indices (LSTM1.sorted_chars text) c) = c)) := by
  have hnd1 : (TorchModel.chars text).Nodup := List.nodup_dedup text
  have hmem1 : ∀ c, c ∈ TorchModel.chars text ↔ c ∈ text :=
    fun c => List.mem_dedup
  have hnd2 : (LSTM1.sorted_chars text).Nodup :=
    ((List.perm_insertionSort _ text.dedup).symm).nodup
      (List.nodup_dedup text)
  have hmem2 : ∀ c, c ∈ LSTM1.sorted_chars text ↔ c ∈ text := fun c =>
    (List.mem_insertionSort _).trans List.mem_dedup
  obtain ⟨h1a, h1b, h1c⟩ :=
    TextGenAux.index_inverse (TorchModel.chars text) hnd1
  obtain ⟨h2a, h2b, h2c⟩ :=
    TextGenAux.index_inverse (LSTM1.sorted_chars text) hnd2
  exact ⟨⟨hnd1, hmem1,
      fun c hc => h1a c ((hmem1 c).2 hc),
      h1b,
      fun c hc => h1c c ((hmem1 c).2 hc)⟩,
    ⟨hnd2, hmem2,
      fun c hc => h2a c ((hmem2 c).2 hc),
      h2b,
      fun c hc => h2c c ((hmem2 c).2 hc)⟩⟩

/-- C7 (amended): on a nonempty prime, `sample` returns the priming string
followed by `1 + size` generated characters — the character predicted
during the priming pass is appended before the `size`-step generation
loop — so the total length is `len(prime) + 1 + size`. -/
theorem sample_length {H : Type} (net : TorchModel.Net H) (size : Nat)
    (prime : List Char) (top_k : Option Nat) (rnd : Nat → Nat)
    (hp : prime ≠ []) :
    (TorchModel.sample net size prime top_k rnd).length =
      prime.length + 1 + size := by
  cases prime with
  | nil => exact absurd rfl hp
  | cons c rest =>
      simp [TorchModel.sample, TorchModel.genLoop_length]
      omega

/-- Witness for C7's amended statement on the two-symbol network. -/
theorem sample_length_witness :
    (['a'] : List Char) ≠ [] ∧
      (TorchModel.sample TorchModel.netB 1 ['a'] none (fun _ => 0)).length =
        (['a'] : List Char).length + 1 + 1 :=
  ⟨by decide, sample_length TorchModel.netB 1 ['a'] none (fun _ => 0)
    (by decide)⟩

/-- Counterexample to C7 as stated: on the two-symbol network — where
every `np.random.choice` call satisfies its dimensionality precondition,
so the source `sample` really returns a string — with `size = 1` and
`prime = "a"`, the returned string has length 3, not
`len(prime) + size = 2`. -/
theorem sample_length_counterexample :
    TorchModel.choice_ok (TorchModel.netB.chars).length [(1 : ℚ), 1] none
  ∧ ¬ ((TorchModel.sample TorchModel.netB 1 ['a'] none (fun _ => 0)).length =
        (['a'] : List Char).length + 1) := by
  constructor
  · exact ⟨by decide, by decide⟩
  · decide

namespace TorchModel

/-- `range(0, nb*nt, nt)` enumerates the `nb` offsets `b * nt`. -/
theorem pyRange_mul (nb nt : Nat) (ht : 1 ≤ nt) :
    pyRange (nb * nt) nt = (List.range nb).map (fun b => b * nt) := by
  unfold pyRange
  have h1 : nb * nt + nt - 1 = (nt - 1) + nt * nb := by
    rw [Nat.mul_comm nt nb]; omega
  rw [h1, Nat.add_mul_div_left _ _ (by omega : 0 < nt),
    Nat.div_eq_of_lt (by omega : nt - 1 < nt), Nat.zero_add]

/-- Length of the truncation `arr[:n_batches * batch_size]`. -/
theorem keep_length (arr : List Nat) (bs : Nat) :
    (arr.take (arr.length / bs * bs)).length = arr.length / bs * bs := by
  rw [List.length_take]
  exact Nat.min_eq_left (Nat.div_mul_le_self _ _)

/-- The inferred column count of `arr.reshape((n_seqs, -1))` after the
truncation: `n_batches * n_steps`. -/
theorem cols_eq (arr : List Nat) (ns nt : Nat) (hs : 1 ≤ ns) :
    (arr.take (arr.length / (ns * nt) * (ns * nt))).length / ns =
      arr.length / (ns * nt) * nt := by
  rw [keep_length]
  have h : arr.length / (ns * nt) * (ns * nt) =
      ns * (arr.length / (ns * nt) * nt) := by ring
  rw [h, Nat.mul_div_cancel_left _ (by omega : 0 < ns)]

/-- Closed form of `get_batches`: the `n_batches` yielded pairs, the
`b`-th built from the column offset `b * n_steps`. -/
theorem get_batches_eq (arr : List Nat) (ns nt : Nat) (hs : 1 ≤ ns)
    (ht : 1 ≤ nt) :
    get_batches arr ns nt =
      (List.range (arr.length / (ns * nt))).map (fun b =>
        ((reshape2 (arr.take (arr.length / (ns * nt) * (ns * nt))) ns
            (arr.length / (ns * nt) * nt)).map
            (fun row => (row.drop (b * nt)).take nt),
         (reshape2 (arr.take (arr.length / (ns * nt) * (ns * nt))) ns
            (arr.length / (ns * nt) * nt)).map
            (fun row => ((row.drop (b * nt)).take nt).drop 1 ++
              [row.getD
                (if b * nt + nt < arr.length / (ns * nt) * nt
                 then b * nt + nt else 0) 0]))) := by
  simp only [get_batches]
  rw [cols_eq arr ns nt hs, pyRange_mul _ _ ht, List.map_map]
  rfl

/-- The `b`-th batch of `get_batches`, for `b < n_batches`. -/
theorem get_batches_getD (arr : List Nat) (ns nt : Nat) (hs : 1 ≤ ns)
    (ht : 1 ≤ nt) {b : Nat} (hb : b < arr.length / (ns * nt)) :
    (get_batches arr ns nt).getD b ([], []) =
      ((reshape2 (arr.take (arr.length / (ns * nt) * (ns * nt))) ns
          (arr.length / (ns * nt) * nt)).map
          (fun row => (row.drop (b * nt)).take nt),
       (reshape2 (arr.take (arr.length / (ns * nt) * (ns * nt))) ns
          (arr.length / (ns * nt) * nt)).map
          (fun row => ((row.drop (b * nt)).take nt).drop 1 ++
            [row.getD
              (if b * nt + nt < arr.length / (ns * nt) * nt
               then b * nt + nt else 0) 0])) := by
  rw [get_batches_eq arr ns nt hs ht]
  exact TextGenAux.getD_map_range _ _ hb

/-- Row `i` of the reshape, for `i < rows`. -/
theorem reshape2_getD (l : List Nat) (rows cols : Nat) {i : Nat}
    (hi : i < rows) :
    (reshape2 l rows cols).getD i [] = reshapeRow l cols i :=
  TextGenAux.getD_map_range _ _ hi

/-- A reshape row has the full width `cols` when the flat array is long
enough. -/
theorem reshapeRow_length (l : List Nat) (cols i : Nat)
    (h : (i + 1) * cols ≤ l.length) :
    (reshapeRow l cols i).length = cols := by
  simp only [reshapeRow, List.length_take, List.length_drop]
  have h' : i * cols + cols ≤ l.length := by
    calc i * cols + cols = (i + 1) * cols := by ring
    _ ≤ l.length := h
  omega

/-- Reading a reshape row at a column below the width reads the flat
array at the row-major position. -/
theorem reshapeRow_getD (l : List Nat) (cols i : Nat) {j : Nat} (d : Nat)
    (hj : j < cols) :
    (reshapeRow l cols i).getD j d = l.getD (i * cols + j) d := by
  unfold reshapeRow
  rw [TextGenAux.getD_take_lt _ _ hj, TextGenAux.getD_drop]

/-- Reading the column slice `row[n:n+nt]` below its width reads the row
at the offset position. -/
theorem slice_getD (row : List Nat) (n nt : Nat) {j : Nat} (d : Nat)
    (hj : j < nt) :
    ((row.drop n).take nt).getD j d = row.getD (n + j) d := by
  rw [TextGenAux.getD_take_lt _ _ hj, TextGenAux.getD_drop]

/-- The column slice `row[n:n+nt]` has length `nt` when it fits. -/
theorem slice_length (row : List Nat) (n nt : Nat)
    (h : n + nt ≤ row.length) :
    ((row.drop n).take nt).length = nt := by
  simp only [List.length_take, List.length_drop]
  omega

end TorchModel

namespace TorchModel

/-- Row `i` of the inputs of batch `b`: the column slice
`[b*nt, b*nt + nt)` of row `i` of the truncated, reshaped corpus. -/
theorem get_batches_x_row (arr : List Nat) (ns nt : Nat) (hs : 1 ≤ ns)
    (ht : 1 ≤ nt) {b : Nat} (hb : b < arr.length / (ns * nt)) {i : Nat}
    (hi : i < ns) :
    ((get_batches arr ns nt).getD b ([], [])).1.getD i [] =
      ((reshapeRow (arr.take (arr.length / (ns * nt) * (ns * nt)))
          (arr.length / (ns * nt) * nt) i).drop (b * nt)).take nt := by
  rw [get_batches_getD arr ns nt hs ht hb]
  simp only [reshape2, List.map_map]
  exact TextGenAux.getD_map_range _ _ hi

/-- Row `i` of the targets of batch `b`: the input slice shifted left by
one, with the wrap-column entry appended. -/
theorem get_batches_y_row (arr : List Nat) (ns nt : Nat) (hs : 1 ≤ ns)
    (ht : 1 ≤ nt) {b : Nat} (hb : b < arr.length / (ns * nt)) {i : Nat}
    (hi : i < ns) :
    ((get_batches arr ns nt).getD b ([], [])).2.getD i [] =
      ((((reshapeRow (arr.take (arr.length / (ns * nt) * (ns * nt)))
          (arr.length / (ns * nt) * nt) i).drop (b * nt)).take nt).drop 1)
        ++ [(reshapeRow (arr.take (arr.length / (ns * nt) * (ns * nt)))
              (arr.length / (ns * nt) * nt) i).getD
            (if b * nt + nt < arr.length / (ns * nt) * nt
             then b * nt + nt else 0) 0] := by
  rw [get_batches_getD arr ns nt hs ht hb]
  simp only [reshape2, List.map_map]
  exact TextGenAux.getD_map_range _ _ hi

/-- A row of the truncated, reshaped corpus has the full width. -/
theorem keep_row_length (arr : List Nat) (ns nt : Nat) {i : Nat}
    (hi : i < ns) :
    (reshapeRow (arr.take (arr.length / (ns * nt) * (ns * nt)))
        (arr.length / (ns * nt) * nt) i).length =
      arr.length / (ns * nt) * nt := by
  apply reshapeRow_length
  rw [keep_length]
  calc (i + 1) * (arr.length / (ns * nt) * nt)
      ≤ ns * (arr.length / (ns * nt) * nt) :=
        Nat.mul_le_mul_right _ (by omega)
    _ = arr.length / (ns * nt) * (ns * nt) := by ring

/-- Entry `j` of a row of the truncated, reshaped corpus, read back in the
original corpus. -/
theorem keep_row_getD (arr : List Nat) (ns nt : Nat) {i m : Nat}
    (hi : i < ns) (hm : m < arr.length / (ns * nt) * nt) :
    (reshapeRow (arr.take (arr.length / (ns * nt) * (ns * nt)))
        (arr.length / (ns * nt) * nt) i).getD m 0 =
      arr.getD (i * (arr.length / (ns * nt) * nt) + m) 0 := by
  rw [reshapeRow_getD _ _ _ _ hm]
  apply TextGenAux.getD_take_lt
  have h1 : i * (arr.length / (ns * nt) * nt) + (arr.length / (ns * nt) * nt)
      = (i + 1) * (arr.length / (ns * nt) * nt) := by ring
  have h2 : (i + 1) * (arr.length / (ns * nt) * nt)
      ≤ ns * (arr.length / (ns * nt) * nt) :=
    Nat.mul_le_mul_right _ (by omega)
  have h3 : ns * (arr.length / (ns * nt) * nt)
      = arr.length / (ns * nt) * (ns * nt) := by ring
  omega

/-- The end of batch `b`'s slice stays within the row width. -/
theorem slice_end_le (arr : List Nat) (ns nt : Nat) {b : Nat}
    (hb : b < arr.length / (ns * nt)) :
    b * nt + nt ≤ arr.length / (ns * nt) * nt := by
  have h1 : b * nt + nt = (b + 1) * nt := by ring
  have h2 : (b + 1) * nt ≤ arr.length / (ns * nt) * nt :=
    Nat.mul_le_mul_right _ (by omega)
  omega

end TorchModel

/-- C2: `get_batches(arr, n_seqs, n_steps)` yields exactly
`len(arr) / (n_seqs*n_steps)` batches; every input `x` has shape
`(n_seqs, n_steps)`, entry `(i, j)` of batch `b` being the corpus element
at row-major position `i * (n_batches*n_steps) + b*n_steps + j` of the
truncated corpus; and every value appearing in any batch, inputs or
targets, is an element of the truncated prefix
`arr[:n_batches*n_seqs*n_steps]` — the dropped remainder never appears. -/
theorem get_batches_count_shape_truncation (arr : List Nat)
    (ns nt : Nat) (hs : 1 ≤ ns) (ht : 1 ≤ nt) :
    (TorchModel.get_batches arr ns nt).length = arr.length / (ns * nt)
  ∧ (∀ b, b < arr.length / (ns * nt) →
      ((TorchModel.get_batches arr ns nt).getD b ([], [])).1.length = ns
      ∧ (∀ row ∈ ((TorchModel.get_batches arr ns nt).getD b ([], [])).1,
          row.length = nt)
      ∧ (∀ i j, i < ns → j < nt →
          (((TorchModel.get_batches arr ns nt).getD b ([], [])).1.getD i
              []).getD j 0 =
            arr.getD (i * (arr.length / (ns * nt) * nt) + b * nt + j) 0))
  ∧ (∀ x y, (x, y) ∈ TorchModel.get_batches arr ns nt →
      (∀ row ∈ x, ∀ v ∈ row,
        v ∈ arr.take (arr.length / (ns * nt) * (ns * nt)))
      ∧ (∀ row ∈ y, ∀ v ∈ row,
        v ∈ arr.take (arr.length / (ns * nt) * (ns * nt)))) := by
  refine ⟨?_, ?_, ?_⟩
  · rw [TorchModel.get_batches_eq arr ns nt hs ht]
    simp [List.length_map, List.length_range]
  · intro b hb
    refine ⟨?_, ?_, ?_⟩
    · rw [TorchModel.get_batches_getD arr ns nt hs ht hb]
      simp [TorchModel.reshape2, List.length_map, List.length_range]
    · intro row hrow
      rw [TorchModel.get_batches_getD arr ns nt hs ht hb] at hrow
      simp only [List.mem_map, TorchModel.reshape2, List.mem_range] at hrow
      obtain ⟨row0, ⟨i, hi, rfl⟩, rfl⟩ := hrow
      apply TorchModel.slice_length
      rw [TorchModel.keep_row_length arr ns nt hi]
      exact TorchModel.slice_end_le arr ns nt hb
    · intro i j hi hj
      rw [TorchModel.get_batches_x_row arr ns nt hs ht hb hi,
        TorchModel.slice_getD _ _ _ _ hj,
        TorchModel.keep_row_getD arr ns nt hi
          (by have := TorchModel.slice_end_le arr ns nt hb; omega)]
      have harith : i * (arr.length / (ns * nt) * nt) + (b * nt + j)
          = i * (arr.length / (ns * nt) * nt) + b * nt + j := by omega
      rw [harith]
  · intro x y hxy
    rw [TorchModel.get_batches_eq arr ns nt hs ht] at hxy
    simp only [List.mem_map, List.mem_range] at hxy
    obtain ⟨b, hb, hpair⟩ := hxy
    have hx := congrArg Prod.fst hpair
    have hy := congrArg Prod.snd hpair
    simp only at hx hy
    constructor
    · intro row hrow v hv
      rw [← hx] at hrow
      simp only [List.mem_map, TorchModel.reshape2, List.mem_range] at hrow
      obtain ⟨row0, ⟨i, hi, rfl⟩, rfl⟩ := hrow
      have hv1 : v ∈ TorchModel.reshapeRow
          (arr.take (arr.length / (ns * nt) * (ns * nt)))
          (arr.length / (ns * nt) * nt) i :=
        List.drop_subset _ _ (List.take_subset _ _ hv)
      exact List.drop_subset _ _ (List.take_subset _ _ hv1)
    · intro row hrow v hv
      rw [← hy] at hrow
      simp only [List.mem_map, TorchModel.reshape2, List.mem_range] at hrow
      obtain ⟨row0, ⟨i, hi, rfl⟩, rfl⟩ := hrow
      rcases List.mem_append.1 hv with hv' | hv'
      · have hv1 : v ∈ TorchModel.reshapeRow
            (arr.take (arr.length / (ns * nt) * (ns * nt)))
            (arr.length / (ns * nt) * nt) i :=
          List.drop_subset _ _
            (List.take_subset _ _ (List.drop_subset _ _ hv'))
        exact List.drop_subset _ _ (List.take_subset _ _ hv1)
      · rw [List.mem_singleton] at hv'
        subst hv'
        have hwrap : (if b * nt + nt < arr.length / (ns * nt) * nt
            then b * nt + nt else 0) < arr.length / (ns * nt) * nt := by
          split
          · omega
          · have h1 : (b + 1) * nt ≤ arr.length / (ns * nt) * nt :=
              Nat.mul_le_mul_right _ (by omega)
            have h2 : 1 * nt ≤ (b + 1) * nt :=
              Nat.mul_le_mul_right _ (by omega)
            omega
        have hmem := TextGenAux.getD_mem (l := TorchModel.reshapeRow
            (arr.take (arr.length / (ns * nt) * (ns * nt)))
            (arr.length / (ns * nt) * nt) i) 0
          (by rw [TorchModel.keep_row_length arr ns nt hi]; exact hwrap)
        exact List.drop_subset _ _ (List.take_subset _ _ hmem)

/-- Witness for C2 at `arr = [0..12]`, `n_seqs = 2`, `n_steps = 3`. -/
theorem get_batches_count_shape_truncation_witness :
    1 ≤ 2 ∧ 1 ≤ 3 ∧
    ((TorchModel.get_batches (List.range 13) 2 3).length =
        (List.range 13).length / (2 * 3)
    ∧ (∀ b, b < (List.range 13).length / (2 * 3) →
        ((TorchModel.get_batches (List.range 13) 2 3).getD b
            ([], [])).1.length = 2
        ∧ (∀ row ∈ ((TorchModel.get_batches (List.range 13) 2 3).getD b
            ([], [])).1, row.length = 3)
        ∧ (∀ i j, i < 2 → j < 3 →
            (((TorchModel.get_batches (List.range 13) 2 3).getD b
                ([], [])).1.getD i []).getD j 0 =
              (List.range 13).getD
                (i * ((List.range 13).length / (2 * 3) * 3) + b * 3 + j) 0))
    ∧ (∀ x y, (x, y) ∈ TorchModel.get_batches (List.range 13) 2 3 →
        (∀ row ∈ x, ∀ v ∈ row,
          v ∈ (List.range 13).take
            ((List.range 13).length / (2 * 3) * (2 * 3)))
        ∧ (∀ row ∈ y, ∀ v ∈ row,
          v ∈ (List.range 13).take
            ((List.range 13).length / (2 * 3) * (2 * 3))))) :=
  ⟨by decide, by decide,
    get_batches_count_shape_truncation (List.range 13) 2 3 (by decide)
      (by decide)⟩

/-- C1: in every batch `(x, y)` of `get_batches`, the targets are the
inputs shifted left by one (`y[:, :-1] = x[:, 1:]`); the final target
column is the leading column `b*n_steps + n_steps` of the next slice of
the truncated, reshaped corpus, except on the final slice of the pass —
characterised exactly by `n + n_steps` reaching the row length, i.e.
`b + 1 = n_batches` — where the `IndexError` branch wraps it to the first
column (the row starts) of the reshaped corpus. -/
theorem get_batches_target_wraparound (arr : List Nat) (ns nt : Nat)
    (hs : 1 ≤ ns) (ht : 1 ≤ nt) {b : Nat}
    (hb : b < arr.length / (ns * nt)) :
    (∀ i, i < ns →
      (((TorchModel.get_batches arr ns nt).getD b ([], [])).2.getD i
          []).dropLast =
        (((TorchModel.get_batches arr ns nt).getD b ([], [])).1.getD i
          []).drop 1)
  ∧ (b * nt + nt < arr.length / (ns * nt) * nt ↔
      b + 1 < arr.length / (ns * nt))
  ∧ (b * nt + nt = arr.length / (ns * nt) * nt ↔
      b + 1 = arr.length / (ns * nt))
  ∧ (b + 1 < arr.length / (ns * nt) →
      ∀ i, i < ns →
        (((TorchModel.get_batches arr ns nt).getD b ([], [])).2.getD i
            []).getLast? =
          some (arr.getD
            (i * (arr.length / (ns * nt) * nt) + (b * nt + nt)) 0))
  ∧ (b + 1 = arr.length / (ns * nt) →
      ∀ i, i < ns →
        (((TorchModel.get_batches arr ns nt).getD b ([], [])).2.getD i
            []).getLast? =
          some (arr.getD (i * (arr.length / (ns * nt) * nt)) 0)) := by
  have hlt : b * nt + nt < arr.length / (ns * nt) * nt ↔
      b + 1 < arr.length / (ns * nt) := by
    have h1 : b * nt + nt = (b + 1) * nt := by ring
    rw [h1, Nat.mul_lt_mul_right (by omega : 0 < nt)]
  have heq : b * nt + nt = arr.length / (ns * nt) * nt ↔
      b + 1 = arr.length / (ns * nt) := by
    constructor
    · intro h
      have h1 : (b + 1) * nt = arr.length / (ns * nt) * nt := by
        have h2 : b * nt + nt = (b + 1) * nt := by ring
        omega
      exact Nat.eq_of_mul_eq_mul_right (by omega) h1
    · intro h
      have h1 : b * nt + nt = (b + 1) * nt := by ring
      rw [h1, h]
  refine ⟨?_, hlt, heq, ?_, ?_⟩
  · intro i hi
    rw [TorchModel.get_batches_y_row arr ns nt hs ht hb hi,
      TorchModel.get_batches_x_row arr ns nt hs ht hb hi]
    exact List.dropLast_concat
  · intro hnext i hi
    rw [TorchModel.get_batches_y_row arr ns nt hs ht hb hi,
      List.getLast?_concat]
    have hcond : b * nt + nt < arr.length / (ns * nt) * nt := hlt.2 hnext
    rw [if_pos hcond, TorchModel.keep_row_getD arr ns nt hi hcond]
  · intro hlast i hi
    rw [TorchModel.get_batches_y_row arr ns nt hs ht hb hi,
      List.getLast?_concat]
    have hcond : ¬ (b * nt + nt < arr.length / (ns * nt) * nt) := by
      rw [hlt]
      omega
    rw [if_neg hcond]
    have h0 : (0 : Nat) < arr.length / (ns * nt) * nt := by
      have h1 : (b + 1) * nt ≤ arr.length / (ns * nt) * nt :=
        Nat.mul_le_mul_right _ (by omega)
      have h2 : 1 * nt ≤ (b + 1) * nt := Nat.mul_le_mul_right _ (by omega)
      omega
    rw [TorchModel.keep_row_getD arr ns nt hi h0, Nat.add_zero]

/-- Witness for C1 at `arr = [0..12]`, `n_seqs = 2`, `n_steps = 3`,
batch `b = 1` (the final slice, which takes the `IndexError` branch). -/
theorem get_batches_target_wraparound_witness :
    1 ≤ 2 ∧ 1 ≤ 3 ∧ 1 < (List.range 13).length / (2 * 3) ∧
    ((∀ i, i < 2 →
      (((TorchModel.get_batches (List.range 13) 2 3).getD 1 ([], [])).2.getD
          i []).dropLast =
        (((TorchModel.get_batches (List.range 13) 2 3).getD 1 ([], [])).1.getD
          i []).drop 1)
  ∧ (1 * 3 + 3 < (List.range 13).length / (2 * 3) * 3 ↔
      1 + 1 < (List.range 13).length / (2 * 3))
  ∧ (1 * 3 + 3 = (List.range 13).length / (2 * 3) * 3 ↔
      1 + 1 = (List.range 13).length / (2 * 3))
  ∧ (1 + 1 < (List.range 13).length / (2 * 3) →
      ∀ i, i < 2 →
        (((TorchModel.get_batches (List.range 13) 2 3).getD 1
            ([], [])).2.getD i []).getLast? =
          some ((List.range 13).getD
            (i * ((List.range 13).length / (2 * 3) * 3) + (1 * 3 + 3)) 0))
  ∧ (1 + 1 = (List.range 13).length / (2 * 3) →
      ∀ i, i < 2 →
        (((TorchModel.get_batches (List.range 13) 2 3).getD 1
            ([], [])).2.getD i []).getLast? =
          some ((List.range 13).getD
            (i * ((List.range 13).length / (2 * 3) * 3)) 0))) :=
  ⟨by decide, by decide, by decide,
    get_batches_target_wraparound (List.range 13) 2 3 (by decide) (by decide)
      (by decide)⟩

namespace TextGenAux

/-- `getD` of an append, inside the left part. -/
theorem getD_append_left {α : Type} {l1 l2 : List α} {n : Nat} (d : α)
    (h : n < l1.length) : (l1 ++ l2).getD n d = l1.getD n d := by
  simp [List.getD_eq_getElem?_getD, List.getElem?_append, h]

/-- `getD` of an append, inside the right part. -/
theorem getD_append_right {α : Type} {l1 l2 : List α} {n : Nat} (d : α)
    (h : l1.length ≤ n) :
    (l1 ++ l2).getD n d = l2.getD (n - l1.length) d := by
  simp [List.getD_eq_getElem?_getD, List.getElem?_append_right h]

/-- A rectangular list of rows flattens to `rows * width` elements. -/
theorem flatten_length_rect {α : Type} (w : Nat) :
    ∀ (arr : List (List α)), (∀ row ∈ arr, row.length = w) →
      arr.flatten.length = arr.length * w := by
  intro arr
  induction arr with
  | nil => intro _; simp
  | cons row rest ih =>
      intro hw
      have hrow : row.length = w := hw row (by simp)
      have hrest := ih (fun r hr => hw r (by simp [hr]))
      simp [List.flatten_cons, hrow, hrest]
      ring

/-- Row-major read of the flattening of a rectangular list of rows. -/
theorem flatten_getD_rect {α : Type} (w : Nat) (d : α) :
    ∀ (arr : List (List α)) (i j : Nat), (∀ row ∈ arr, row.length = w) →
      i < arr.length → j < w →
      arr.flatten.getD (i * w + j) d = (arr.getD i []).getD j d := by
  intro arr
  induction arr with
  | nil => intro i j _ hi _; exact absurd hi (by simp)
  | cons row rest ih =>
      intro i j hw hi hj
      have hrow : row.length = w := hw row (by simp)
      cases i with
      | zero =>
          simp only [List.flatten_cons, Nat.zero_mul, Nat.zero_add]
          rw [getD_append_left d (by omega)]
          rfl
      | succ i' =>
          simp only [List.flatten_cons]
          have hidx : (i' + 1) * w + j = row.length + (i' * w + j) := by
            rw [hrow]; ring
          rw [hidx, getD_append_right d (by omega)]
          have hsub : row.length + (i' * w + j) - row.length =
              i' * w + j := by omega
          rw [hsub]
          have hi' : i' < rest.length := by
            simp only [List.length_cons] at hi; omega
          rw [ih i' j (fun r hr => hw r (by simp [hr])) hi' hj]
          rfl

/-- Entry `k` of the one-hot row `replicate n 0` with position `v` set to
one: `1` at `k = v`, `0` elsewhere (for any `v`, in range or not). -/
theorem set_replicate_getD (n v k : Nat) (hk : k < n) :
    ((List.replicate n (0 : Nat)).set v 1).getD k 0 =
      if v = k then 1 else 0 := by
  by_cases hvk : v = k
  · subst hvk
    rw [List.getD_eq_getElem?_getD,
      List.getElem?_set_self (by simp [List.length_replicate, hk])]
    simp
  · rw [List.getD_eq_getElem?_getD, List.getElem?_set_ne hvk,
      List.getElem?_replicate]
    simp [hk, hvk]

end TextGenAux

namespace TorchModel

/-- The scatter rows of `one_hot_flat`, read below the flat length. -/
theorem one_hot_flat_getD (flat : List Nat) (n_labels : Nat) {m : Nat}
    (hm : m < flat.length) :
    (one_hot_flat flat n_labels).getD m [] =
      (List.replicate n_labels 0).set (flat.getD m 0) 1 := by
  unfold one_hot_flat
  rw [List.getD_eq_getElem (l := flat.map _) _
      (by simp [List.length_map]; omega),
    List.getElem_map]
  rw [List.getD_eq_getElem _ _ hm]

end TorchModel

/-- C4: for a rectangular integer array with entries in `[0, n_labels)`,
`one_hot_encode` returns an array of shape `arr.shape + (n_labels,)`
whose innermost vectors are the one-hot rows of the corresponding input
entries: entry `(i, j, k)` is `1` when `arr[i][j] = k` and `0`
otherwise. -/
theorem one_hot_encode_spec (arr : List (List Nat)) (n_labels w : Nat)
    (hw : ∀ row ∈ arr, row.length = w) :
    (TorchModel.one_hot_encode arr n_labels).length = arr.length
  ∧ (∀ i, i < arr.length →
      ((TorchModel.one_hot_encode arr n_labels).getD i []).length = w
      ∧ ∀ j, j < w →
        (((TorchModel.one_hot_encode arr n_labels).getD i []).getD j
            []).length = n_labels
        ∧ ((TorchModel.one_hot_encode arr n_labels).getD i []).getD j []
            = (List.replicate n_labels 0).set ((arr.getD i []).getD j 0) 1
        ∧ ∀ k, k < n_labels →
            ((((TorchModel.one_hot_encode arr n_labels).getD i []).getD j
                []).getD k 0) =
              if (arr.getD i []).getD j 0 = k then 1 else 0) := by
  have hflatlen : arr.flatten.length = arr.length * w :=
    TextGenAux.flatten_length_rect w arr hw
  have hohlen : (TorchModel.one_hot_flat arr.flatten n_labels).length =
      arr.length * w := by
    unfold TorchModel.one_hot_flat
    rw [List.length_map, hflatlen]
  constructor
  · unfold TorchModel.one_hot_encode TorchModel.reshape3
    rw [List.length_map, List.length_range]
  · intro i hi
    have harr : arr ≠ [] := by
      intro hnil; rw [hnil] at hi; exact absurd hi (by simp)
    have hheadI : arr.headI.length = w := by
      cases arr with
      | nil => exact absurd rfl harr
      | cons row rest => exact hw row (by simp)
    have hrow : (TorchModel.one_hot_encode arr n_labels).getD i [] =
        ((TorchModel.one_hot_flat arr.flatten n_labels).drop (i * w)).take
          w := by
      unfold TorchModel.one_hot_encode TorchModel.reshape3
      rw [hheadI]
      exact TextGenAux.getD_map_range _ _ hi
    have hiw : i * w + w ≤ arr.length * w := by
      calc i * w + w = (i + 1) * w := by ring
        _ ≤ arr.length * w := Nat.mul_le_mul_right _ (by omega)
    refine ⟨?_, ?_⟩
    · rw [hrow]
      simp only [List.length_take, List.length_drop, hohlen]
      omega
    · intro j hj
      have hm : i * w + j < arr.length * w := by omega
      have hinner :
          ((TorchModel.one_hot_encode arr n_labels).getD i []).getD j [] =
            (List.replicate n_labels 0).set ((arr.getD i []).getD j 0) 1 := by
        rw [hrow, TextGenAux.getD_take_lt _ _ hj, TextGenAux.getD_drop,
          TorchModel.one_hot_flat_getD arr.flatten n_labels
            (by omega : i * w + j < arr.flatten.length),
          TextGenAux.flatten_getD_rect w 0 arr i j hw hi hj]
      refine ⟨?_, hinner, ?_⟩
      · rw [hinner, List.length_set, List.length_replicate]
      · intro k hk
        rw [hinner]
        exact TextGenAux.set_replicate_getD n_labels _ k hk

/-- Witness for C4 at the concrete array `[[1, 0], [2, 1]]` with three
labels. -/
theorem one_hot_encode_spec_witness :
    (∀ row ∈ [[1, 0], [2, 1]], row.length = 2) ∧
    ((TorchModel.one_hot_encode [[1, 0], [2, 1]] 3).length =
        ([[1, 0], [2, 1]] : List (List Nat)).length
    ∧ (∀ i, i < ([[1, 0], [2, 1]] : List (List Nat)).length →
        ((TorchModel.one_hot_encode [[1, 0], [2, 1]] 3).getD i []).length = 2
        ∧ ∀ j, j < 2 →
          (((TorchModel.one_hot_encode [[1, 0], [2, 1]] 3).getD i []).getD j
              []).length = 3
          ∧ ((TorchModel.one_hot_encode [[1, 0], [2, 1]] 3).getD i []).getD j
              [] = (List.replicate 3 0).set
                ((([[1, 0], [2, 1]] : List (List Nat)).getD i []).getD j 0) 1
          ∧ ∀ k, k < 3 →
              ((((TorchModel.one_hot_encode [[1, 0], [2, 1]] 3).getD i
                  []).getD j []).getD k 0) =
                if (([[1, 0], [2, 1]] : List (List Nat)).getD i []).getD j 0
                    = k then 1 else 0)) :=
  ⟨by decide,
    one_hot_encode_spec [[1, 0], [2, 1]] 3 2 (by decide)⟩

namespace TextGenAux

/-- A fold whose step keeps the second component returns the second
component unchanged. -/
theorem foldl_snd_const {α β γ : Type} (f : α × β → γ → α × β)
    (hf : ∀ acc e, (f acc e).2 = acc.2) :
    ∀ (l : List γ) (acc : α × β), (l.foldl f acc).2 = acc.2 := by
  intro l
  induction l with
  | nil => intro acc; rfl
  | cons e t ih =>
      intro acc
      rw [List.foldl_cons, ih (f acc e), hf acc e]

/-- A fold over `enumFrom j` that only sets positions at the running
index leaves every position below `j` unchanged. -/
theorem foldl_enumFrom_set_below {α β : Type} (g : α → β → α) (d : α) :
    ∀ (bs : List β) (j : Nat) (acc : List α) (m : Nat), m < j →
      ((List.enumFrom j bs).foldl
        (fun a tb => a.set tb.1 (g (a.getD tb.1 d) tb.2)) acc).getD m d =
        acc.getD m d := by
  intro bs
  induction bs with
  | nil => intro j acc m _; rfl
  | cons b t ih =>
      intro j acc m hm
      rw [List.enumFrom_cons, List.foldl_cons]
      rw [ih (j + 1) _ m (by omega)]
      simp only [List.getD_eq_getElem?_getD]
      rw [List.getElem?_set_ne (by omega : j ≠ m)]

/-- A fold over `enumFrom j` that sets position `tb.1` to a function of
its current value, evaluated at position `j + m`: every in-range position
is set exactly once, from its starting value. -/
theorem foldl_enumFrom_set_at {α β : Type} (g : α → β → α) (d : α)
    (db : β) :
    ∀ (bs : List β) (j : Nat) (acc : List α) (m : Nat),
      j + bs.length ≤ acc.length → m < bs.length →
      ((List.enumFrom j bs).foldl
        (fun a tb => a.set tb.1 (g (a.getD tb.1 d) tb.2)) acc).getD (j + m)
          d =
        g (acc.getD (j + m) d) (bs.getD m db) := by
  intro bs
  induction bs with
  | nil => intro j acc m _ hm; exact absurd hm (by simp)
  | cons b t ih =>
      intro j acc m hlen hm
      rw [List.enumFrom_cons, List.foldl_cons]
      dsimp only
      cases m with
      | zero =>
          simp only [Nat.add_zero]
          rw [foldl_enumFrom_set_below g d t (j + 1) _ j (by omega)]
          simp only [List.getD_eq_getElem?_getD]
          rw [List.getElem?_set_self
            (by simp only [List.length_cons] at hlen; omega)]
          simp
      | succ m' =>
          have hstep : j + (m' + 1) = (j + 1) + m' := by omega
          rw [hstep, ih (j + 1) _ m'
            (by simp only [List.length_set];
                simp only [List.length_cons] at hlen; omega)
            (by simp only [List.length_cons] at hm; omega)]
          simp only [List.getD_eq_getElem?_getD]
          rw [List.getElem?_set_ne (by omega : j ≠ j + 1 + m')]
          simp [List.getD_cons_succ]

/-- Entry `k` of the boolean one-hot row `replicate n false` with
position `v` set to `true`. -/
theorem set_replicate_getD_bool (n v k : Nat) (hk : k < n) :
    ((List.replicate n false).set v true).getD k false =
      if v = k then true else false := by
  by_cases hvk : v = k
  · subst hvk
    rw [List.getD_eq_getElem?_getD,
      List.getElem?_set_self (by simp [List.length_replicate, hk])]
    simp
  · rw [List.getD_eq_getElem?_getD, List.getElem?_set_ne hvk,
      List.getElem?_replicate]
    simp [hk, hvk]

/-- `getD` of `replicate`, in range. -/
theorem getD_replicate_lt {α : Type} (a d : α) {n m : Nat} (hm : m < n) :
    (List.replicate n a).getD m d = a := by
  rw [List.getD_eq_getElem _ _ (by simp [List.length_replicate]; omega)]
  exact List.getElem_replicate a _

end TextGenAux

namespace Unnamed

/-- The vectorization loop never writes to `y`: its second component
passes through unchanged. -/
theorem vectorizeLoop_snd (ci : Char → Nat) (sentences : List (List Char))
    (next_chars : List Char) (x0 : List (List (List Bool)))
    (y0 : List (List Bool)) :
    (vectorizeLoop ci sentences next_chars x0 y0).2 = y0 := by
  unfold vectorizeLoop
  exact TextGenAux.foldl_snd_const
    (fun acc is =>
      let x := acc.1.set is.1 (innerFill ci (acc.1.getD is.1 []) is.2)
      let _yRead := (acc.2.getD is.1 []).getD
        (ci (next_chars.getD is.1 (Char.ofNat 0))) false
      (x, acc.2))
    (fun _ _ => rfl) sentences.enum (x0, y0)

/-- The `x` component of the vectorization loop is the plain fold that
fills row `i` from sentence `i`. -/
theorem vectorizeLoop_fst (ci : Char → Nat) (sentences : List (List Char))
    (next_chars : List Char) (x0 : List (List (List Bool)))
    (y0 : List (List Bool)) :
    (vectorizeLoop ci sentences next_chars x0 y0).1 =
      sentences.enum.foldl
        (fun x is => x.set is.1 (innerFill ci (x.getD is.1 []) is.2)) x0 := by
  unfold vectorizeLoop
  generalize sentences.enum = l
  induction l generalizing x0 y0 with
  | nil => rfl
  | cons e t ih =>
      rw [List.foldl_cons, List.foldl_cons]
      exact ih _ _

end Unnamed

namespace Unnamed

/-- Row `t` of the inner fill, for `t` within the sentence: the current
row with position `char_indices[sentence[t]]` set. -/
theorem innerFill_getD (ci : Char → Nat) (xi : List (List Bool))
    (s : List Char) {t : Nat} (hlen : s.length ≤ xi.length)
    (ht : t < s.length) :
    (innerFill ci xi s).getD t [] =
      (xi.getD t []).set (ci (s.getD t (Char.ofNat 0))) true := by
  unfold innerFill
  have h := TextGenAux.foldl_enumFrom_set_at
    (fun rowt c => rowt.set (ci c) true) ([] : List Bool) (Char.ofNat 0)
    s 0 xi t (by omega) ht
  simpa using h

/-- Row `i` of the `x` output of the vectorization cell: the inner fill of
sentence `i` over the all-false row block. -/
theorem vectorize_x_getD (ci : Char → Nat) (max_len n_chars : Nat)
    (sentences : List (List Char)) (next_chars : List Char) {i : Nat}
    (hi : i < sentences.length) :
    (vectorize ci max_len n_chars sentences next_chars).1.getD i [] =
      innerFill ci
        (List.replicate max_len (List.replicate n_chars false))
        (sentences.getD i []) := by
  unfold vectorize
  rw [vectorizeLoop_fst]
  have h0 : (List.replicate sentences.length
      (List.replicate max_len (List.replicate n_chars false))).getD i [] =
        List.replicate max_len (List.replicate n_chars false) :=
    TextGenAux.getD_replicate_lt _ _ hi
  have h : (sentences.enum.foldl
      (fun x is => x.set is.1 (innerFill ci (x.getD is.1 []) is.2))
      (List.replicate sentences.length
        (List.replicate max_len (List.replicate n_chars false)))).getD i []
      = innerFill ci
        ((List.replicate sentences.length
          (List.replicate max_len (List.replicate n_chars false))).getD i
            [])
        (sentences.getD i []) := by
    have h1 := TextGenAux.foldl_enumFrom_set_at
      (fun xi s => innerFill ci xi s) ([] : List (List Bool))
      ([] : List Char) sentences 0
      (List.replicate sentences.length
        (List.replicate max_len (List.replicate n_chars false))) i
      (by simp [List.length_replicate]) hi
    simpa using h1
  rw [h, h0]

end Unnamed

/-- C10: in the unnamed Keras notebook, the vectorization loop leaves the
target array `y` identically zero for every corpus and every sequence —
the statement `y[i, char_indices[next_chars[i]]]` reads without assigning,
so no target bit is ever set — while the input array `x` is correctly
one-hot filled by the same loop: for every sentence `i` and position `t`,
row `(i, t)` of `x` is the all-false row with the single position
`char_indices[sentence[t]]` set. -/
theorem vectorize_y_never_written (ci : Char → Nat)
    (max_len n_chars : Nat) (sentences : List (List Char))
    (next_chars : List Char)
    (hlen : ∀ s ∈ sentences, s.length ≤ max_len) :
    (Unnamed.vectorize ci max_len n_chars sentences next_chars).2 =
      List.replicate sentences.length (List.replicate n_chars false)
  ∧ (∀ i, i < sentences.length →
      ∀ t, t < (sentences.getD i []).length →
        ((Unnamed.vectorize ci max_len n_chars sentences
            next_chars).1.getD i []).getD t [] =
          (List.replicate n_chars false).set
            (ci ((sentences.getD i []).getD t (Char.ofNat 0))) true
        ∧ ∀ k, k < n_chars →
            ((((Unnamed.vectorize ci max_len n_chars sentences
                next_chars).1.getD i []).getD t []).getD k false) =
              if ci ((sentences.getD i []).getD t (Char.ofNat 0)) = k
              then true else false) := by
  constructor
  · unfold Unnamed.vectorize
    exact Unnamed.vectorizeLoop_snd ci sentences next_chars _ _
  · intro i hi t ht
    have hsent : (sentences.getD i []) ∈ sentences :=
      TextGenAux.getD_mem [] hi
    have hslen : (sentences.getD i []).length ≤ max_len :=
      hlen _ hsent
    have hrow :
        ((Unnamed.vectorize ci max_len n_chars sentences
            next_chars).1.getD i []).getD t [] =
          (List.replicate n_chars false).set
            (ci ((sentences.getD i []).getD t (Char.ofNat 0))) true := by
      rw [Unnamed.vectorize_x_getD ci max_len n_chars sentences next_chars
        hi]
      rw [Unnamed.innerFill_getD ci _ _
        (by rw [List.length_replicate]; omega) ht]
      rw [TextGenAux.getD_replicate_lt _ _ (by omega : t < max_len)]
    refine ⟨hrow, ?_⟩
    intro k hk
    rw [hrow]
    exact TextGenAux.set_replicate_getD_bool n_chars _ k hk

/-- Witness for C10 at the concrete corpus slice `sentences = [['a','b']]`,
`next_chars = ['a']`, two symbols, `max_len = 2`. -/
theorem vectorize_y_never_written_witness :
    (∀ s ∈ [['a', 'b']], List.length s ≤ 2) ∧
    ((Unnamed.vectorize (fun c => c.toNat - 97) 2 2 [['a', 'b']]
        ['a']).2 =
      List.replicate ([['a', 'b']] : List (List Char)).length
        (List.replicate 2 false)
  ∧ (∀ i, i < ([['a', 'b']] : List (List Char)).length →
      ∀ t, t < (([['a', 'b']] : List (List Char)).getD i []).length →
        ((Unnamed.vectorize (fun c => c.toNat - 97) 2 2 [['a', 'b']]
            ['a']).1.getD i []).getD t [] =
          (List.replicate 2 false).set
            ((fun c => c.toNat - 97)
              ((([['a', 'b']] : List (List Char)).getD i []).getD t
                (Char.ofNat 0))) true
        ∧ ∀ k, k < 2 →
            ((((Unnamed.vectorize (fun c => c.toNat - 97) 2 2 [['a', 'b']]
                ['a']).1.getD i []).getD t []).getD k false) =
              if (fun c => c.toNat - 97)
                  ((([['a', 'b']] : List (List Char)).getD i []).getD t
                    (Char.ofNat 0)) = k
              then true else false)) :=
  ⟨by decide,
    vectorize_y_never_written (fun c => c.toNat - 97) 2 2 [['a', 'b']]
      ['a'] (by decide)⟩

namespace TextGenAux

/-- Sum of elementwise division by a constant. -/
theorem sum_map_div_const (l : List ℚ) (c : ℚ) :
    (l.map (fun v => v / c)).sum = l.sum / c := by
  induction l with
  | nil => simp
  | cons a t ih => simp [ih]; ring

end TextGenAux

namespace TorchModel

/-- `topk` keeps exactly `k` entries when `k` is within the vector. -/
theorem torch_topk_length (p : List ℚ) (k : Nat) (hk : k ≤ p.length) :
    (torch_topk p k).2.length = k := by
  unfold torch_topk
  simp only [List.length_map, List.length_take, List.length_insertionSort,
    List.enum_length]
  omega

/-- Every `topk` pair is an indexed entry of `p`. -/
theorem torch_topk_pairs_mem (p : List ℚ) (k : Nat) {a : Nat × ℚ}
    (ha : a ∈ (List.insertionSort probGe p.enum).take k) :
    a.1 < p.length ∧ a.2 = p.getD a.1 0 := by
  have hmem : a ∈ p.enum :=
    (List.mem_insertionSort probGe).1 (List.take_subset _ _ ha)
  obtain ⟨ha1, ha2⟩ := List.mem_enum (x := a.2) (i := a.1) (by
    cases a; exact hmem)
  refine ⟨ha1, ?_⟩
  rw [ha2, List.getD_eq_getElem _ _ ha1]

/-- The `topk` index list is repetition-free. -/
theorem torch_topk_nodup (p : List ℚ) (k : Nat) :
    (torch_topk p k).2.Nodup := by
  simp only [torch_topk]
  have hperm : (List.insertionSort probGe p.enum).Perm p.enum :=
    List.perm_insertionSort probGe p.enum
  have hnodup : ((List.insertionSort probGe p.enum).map Prod.fst).Nodup := by
    have hpermmap := (hperm.map Prod.fst).symm
    have : (p.enum.map Prod.fst).Nodup := by
      rw [List.enum_map_fst]
      exact List.nodup_range p.length
    exact hpermmap.nodup this
  rw [List.map_take]
  exact (List.take_sublist _ _).nodup hnodup

/-- Every `topk` index is a valid index into `p`. -/
theorem torch_topk_mem_lt (p : List ℚ) (k : Nat) {i : Nat}
    (hi : i ∈ (torch_topk p k).2) : i < p.length := by
  simp only [torch_topk, List.mem_map] at hi
  obtain ⟨a, ha, rfl⟩ := hi
  exact (torch_topk_pairs_mem p k ha).1

/-- Every kept `topk` probability dominates every dropped one: any index
outside the `topk` selection has probability at most that of any index
inside it. -/
theorem torch_topk_dominates (p : List ℚ) (k : Nat) {i j : Nat}
    (hi : i ∈ (torch_topk p k).2) (hj : j < p.length)
    (hj2 : j ∉ (torch_topk p k).2) :
    p.getD j 0 ≤ p.getD i 0 := by
  simp only [torch_topk, List.mem_map] at hi hj2
  obtain ⟨a, ha, rfl⟩ := hi
  have hsorted : List.Sorted probGe (List.insertionSort probGe p.enum) :=
    List.sorted_insertionSort probGe p.enum
  have hsplit : List.insertionSort probGe p.enum =
      (List.insertionSort probGe p.enum).take k ++
        (List.insertionSort probGe p.enum).drop k :=
    (List.take_append_drop k _).symm
  have hpw := hsorted
  rw [List.Sorted, hsplit, List.pairwise_append] at hpw
  have hjpair : ((j, p.getD j 0) : Nat × ℚ) ∈
      List.insertionSort probGe p.enum := by
    rw [List.mem_insertionSort]
    have hj' : j < p.enum.length := by rw [List.enum_length]; omega
    have := List.getElem_enum p j hj'
    rw [List.getD_eq_getElem _ _ hj]
    rw [← this]
    exact List.getElem_mem hj'
  have hjdrop : ((j, p.getD j 0) : Nat × ℚ) ∈
      (List.insertionSort probGe p.enum).drop k := by
    rcases (List.mem_append.1 (hsplit ▸ hjpair)) with h | h
    · exact absurd ⟨(j, p.getD j 0), h, rfl⟩ hj2
    · exact h
  have hdom := hpw.2.2 a ha _ hjdrop
  have ha2 := (torch_topk_pairs_mem p k ha).2
  rw [← ha2]
  exact hdom

/-- The kept `topk` values are the probabilities at the kept indices. -/
theorem torch_topk_vals (p : List ℚ) (k : Nat) :
    (torch_topk p k).1 = (torch_topk p k).2.map (fun i => p.getD i 0) := by
  simp only [torch_topk]
  rw [List.map_map]
  apply List.map_congr_left
  intro a ha
  exact (torch_topk_pairs_mem p k ha).2

end TorchModel

/-- C3 (amended): with `top_k = K` for `2 ≤ K ≤` vocabulary size — at
`K = 1` the squeezed 0-d arrays make `np.random.choice` raise, so no
character is returned — `predict` samples from the restriction of the
softmax output `p` to its `K` most probable symbols, renormalised: the
candidate set has exactly `K` distinct in-vocabulary indices, each kept
probability dominates every dropped one, the weight vector handed to
`np.random.choice` is the kept probabilities divided by their sum
(summing to one), the call succeeds, and the returned character is
always one of the `K` candidates.  With `top_k = None` (on the same
at-least-two-symbol vocabulary), every vocabulary symbol is a candidate,
the weights are the full softmax output renormalised, and the call
succeeds. -/
theorem predict_top_k_spec (cs : List Char) (p : List ℚ) (K : Nat)
    (hK1 : 2 ≤ K) (hK2 : K ≤ p.length) (hlen : p.length = cs.length)
    (hpos : ∀ v ∈ p, 0 < v) :
    ((TorchModel.predict_candidates cs.length p (some K)).2).length = K
  ∧ ((TorchModel.predict_candidates cs.length p (some K)).2).Nodup
  ∧ (∀ i ∈ (TorchModel.predict_candidates cs.length p (some K)).2,
      i < cs.length)
  ∧ (∀ i ∈ (TorchModel.predict_candidates cs.length p (some K)).2,
      ∀ j, j < p.length →
        j ∉ (TorchModel.predict_candidates cs.length p (some K)).2 →
        p.getD j 0 ≤ p.getD i 0)
  ∧ TorchModel.predict_weights cs.length p (some K) =
      ((TorchModel.predict_candidates cs.length p (some K)).2).map
        (fun i => p.getD i 0 /
          (((TorchModel.predict_candidates cs.length p (some K)).2).map
            (fun i => p.getD i 0)).sum)
  ∧ (TorchModel.predict_weights cs.length p (some K)).sum = 1
  ∧ (∀ r, r < K →
      ∃ i ∈ (TorchModel.predict_candidates cs.length p (some K)).2,
        TorchModel.predict cs p (some K) r = TorchModel.int2char cs i)
  ∧ (∀ r, TorchModel.predict_choice cs p (some K) r =
      some (TorchModel.predict cs p (some K) r))
  ∧ (TorchModel.predict_candidates cs.length p none).2 =
      List.range cs.length
  ∧ TorchModel.predict_weights cs.length p none =
      p.map (fun v => v / p.sum)
  ∧ (TorchModel.predict_weights cs.length p none).sum = 1
  ∧ (∀ r, TorchModel.predict_choice cs p none r =
      some (TorchModel.predict cs p none r)) := by
  have hklen : (TorchModel.torch_topk p K).2.length = K :=
    TorchModel.torch_topk_length p K hK2
  have hvals : (TorchModel.torch_topk p K).1 =
      (TorchModel.torch_topk p K).2.map (fun i => p.getD i 0) :=
    TorchModel.torch_topk_vals p K
  have hvalspos : ∀ v ∈ (TorchModel.torch_topk p K).1, 0 < v := by
    intro v hv
    rw [hvals] at hv
    simp only [List.mem_map] at hv
    obtain ⟨i, hi, rfl⟩ := hv
    have hilt := TorchModel.torch_topk_mem_lt p K hi
    exact hpos _ (TextGenAux.getD_mem 0 hilt)
  have hvalsne : (TorchModel.torch_topk p K).1 ≠ [] := by
    intro hcon
    have : (TorchModel.torch_topk p K).1.length = K := by
      rw [hvals, List.length_map, hklen]
    rw [hcon] at this
    simp at this
    omega
  have hsumpos : 0 < (TorchModel.torch_topk p K).1.sum :=
    List.sum_pos _ hvalspos hvalsne
  have hokK : TorchModel.choice_ok cs.length p (some K) := ⟨hK1, hK2⟩
  have hoknone : TorchModel.choice_ok cs.length p none :=
    ⟨by omega, hlen.symm⟩
  refine ⟨hklen, TorchModel.torch_topk_nodup p K, ?_, ?_, ?_, ?_, ?_,
    fun r => if_pos hokK, rfl, rfl, ?_, fun r => if_pos hoknone⟩
  · intro i hi
    have := TorchModel.torch_topk_mem_lt p K hi
    omega
  · intro i hi j hj hj2
    exact TorchModel.torch_topk_dominates p K hi hj hj2
  · show ((TorchModel.torch_topk p K).1).map
        (fun v => v / (TorchModel.torch_topk p K).1.sum) = _
    rw [hvals, List.map_map]
    rfl
  · show (((TorchModel.torch_topk p K).1).map
        (fun v => v / (TorchModel.torch_topk p K).1.sum)).sum = 1
    rw [TextGenAux.sum_map_div_const]
    exact div_self (ne_of_gt hsumpos)
  · intro r hr
    refine ⟨(TorchModel.torch_topk p K).2.getD r 0, ?_, rfl⟩
    exact TextGenAux.getD_mem (l := (TorchModel.torch_topk p K).2) 0
      (by omega)
  · show (p.map (fun v => v / p.sum)).sum = 1
    rw [TextGenAux.sum_map_div_const]
    have hpne : p ≠ [] := by
      intro hcon
      rw [hcon] at hK2
      simp at hK2
      omega
    exact div_self (ne_of_gt (List.sum_pos p hpos hpne))

/-- Witness for C3 at the vocabulary `a, b, c`, softmax output
`[1, 3, 2]` (positive weights), `K = 2`. -/
theorem predict_top_k_spec_witness :
    2 ≤ 2 ∧ 2 ≤ ([(1 : ℚ), 3, 2] : List ℚ).length
  ∧ ([(1 : ℚ), 3, 2] : List ℚ).length = (['a', 'b', 'c'] : List Char).length
  ∧ (∀ v ∈ [(1 : ℚ), 3, 2], 0 < v)
  ∧ (((TorchModel.predict_candidates (['a', 'b', 'c'] : List Char).length
        [(1 : ℚ), 3, 2] (some 2)).2).length = 2
  ∧ ((TorchModel.predict_candidates (['a', 'b', 'c'] : List Char).length
        [(1 : ℚ), 3, 2] (some 2)).2).Nodup
  ∧ (∀ i ∈ (TorchModel.predict_candidates
        (['a', 'b', 'c'] : List Char).length [(1 : ℚ), 3, 2] (some 2)).2,
      i < (['a', 'b', 'c'] : List Char).length)
  ∧ (∀ i ∈ (TorchModel.predict_candidates
        (['a', 'b', 'c'] : List Char).length [(1 : ℚ), 3, 2] (some 2)).2,
      ∀ j, j < ([(1 : ℚ), 3, 2] : List ℚ).length →
        j ∉ (TorchModel.predict_candidates
          (['a', 'b', 'c'] : List Char).length [(1 : ℚ), 3, 2] (some 2)).2 →
        ([(1 : ℚ), 3, 2] : List ℚ).getD j 0 ≤
          ([(1 : ℚ), 3, 2] : List ℚ).getD i 0)
  ∧ TorchModel.predict_weights (['a', 'b', 'c'] : List Char).length
      [(1 : ℚ), 3, 2] (some 2) =
      ((TorchModel.predict_candidates (['a', 'b', 'c'] : List Char).length
          [(1 : ℚ), 3, 2] (some 2)).2).map
        (fun i => ([(1 : ℚ), 3, 2] : List ℚ).getD i 0 /
          (((TorchModel.predict_candidates
              (['a', 'b', 'c'] : List Char).length [(1 : ℚ), 3, 2]
              (some 2)).2).map
            (fun i => ([(1 : ℚ), 3, 2] : List ℚ).getD i 0)).sum)
  ∧ (TorchModel.predict_weights (['a', 'b', 'c'] : List Char).length
      [(1 : ℚ), 3, 2] (some 2)).sum = 1
  ∧ (∀ r, r < 2 →
      ∃ i ∈ (TorchModel.predict_candidates
          (['a', 'b', 'c'] : List Char).length [(1 : ℚ), 3, 2] (some 2)).2,
        TorchModel.predict ['a', 'b', 'c'] [(1 : ℚ), 3, 2] (some 2) r =
          TorchModel.int2char ['a', 'b', 'c'] i)
  ∧ (∀ r, TorchModel.predict_choice ['a', 'b', 'c'] [(1 : ℚ), 3, 2]
        (some 2) r =
      some (TorchModel.predict ['a', 'b', 'c'] [(1 : ℚ), 3, 2] (some 2) r))
  ∧ (TorchModel.predict_candidates (['a', 'b', 'c'] : List Char).length
      [(1 : ℚ), 3, 2] none).2 =
      List.range (['a', 'b', 'c'] : List Char).length
  ∧ TorchModel.predict_weights (['a', 'b', 'c'] : List Char).length
      [(1 : ℚ), 3, 2] none =
      ([(1 : ℚ), 3, 2] : List ℚ).map
        (fun v => v / ([(1 : ℚ), 3, 2] : List ℚ).sum)
  ∧ (TorchModel.predict_weights (['a', 'b', 'c'] : List Char).length
      [(1 : ℚ), 3, 2] none).sum = 1
  ∧ (∀ r, TorchModel.predict_choice ['a', 'b', 'c'] [(1 : ℚ), 3, 2]
        none r =
      some (TorchModel.predict ['a', 'b', 'c'] [(1 : ℚ), 3, 2] none r))) :=
  ⟨by decide, by decide, by decide, by decide,
    predict_top_k_spec ['a', 'b', 'c'] [(1 : ℚ), 3, 2] 2 (by decide)
      (by decide) (by decide) (by decide)⟩

/-- Counterexample to C3 as stated: `top_k = 1` lies inside the claim's
range `1 ≤ K ≤` vocabulary size, the softmax output is positive and
vocabulary-sized, yet `predict` returns no character at all — the
shape-`(1, 1)` results of `p.topk(1)` squeeze to 0-d arrays, on which
`np.random.choice` raises — instead of returning the top-1 symbol. -/
theorem predict_top_one_counterexample :
    1 ≤ 1 ∧ 1 ≤ ([(1 : ℚ), 1] : List ℚ).length
  ∧ ([(1 : ℚ), 1] : List ℚ).length = (['a', 'b'] : List Char).length
  ∧ (∀ v ∈ [(1 : ℚ), 1], 0 < v)
  ∧ TorchModel.predict_choice ['a', 'b'] [(1 : ℚ), 1] (some 1) 0 =
      none := by
  refine ⟨by decide, by decide, by decide, by decide, ?_⟩
  rfl

namespace TorchModel

/-- Whatever the truncation setting and the drawn position, `predict`
returns a vocabulary symbol (for a nonempty vocabulary and an output
vector no longer than the vocabulary). -/
theorem predict_mem (cs : List Char) (p : List ℚ) (top_k : Option Nat)
    (r : Nat) (hne : cs ≠ []) (hlen : p.length ≤ cs.length) :
    predict cs p top_k r ∈ cs := by
  have hcs : 0 < cs.length := List.length_pos.2 hne
  have hidx : (predict_candidates cs.length p top_k).2.getD r 0 <
      cs.length := by
    cases top_k with
    | none =>
        by_cases hr : r < (List.range cs.length).length
        · show (List.range cs.length).getD r 0 < cs.length
          rw [List.getD_eq_getElem _ _ hr]
          rw [List.length_range] at hr
          simp [List.getElem_range, hr]
        · show (List.range cs.length).getD r 0 < cs.length
          rw [List.getD_eq_default _ _ (by omega)]
          exact hcs
    | some k =>
        by_cases hr : r < (torch_topk p k).2.length
        · have hmem : (torch_topk p k).2.getD r 0 ∈ (torch_topk p k).2 :=
            TextGenAux.getD_mem 0 hr
          have := torch_topk_mem_lt p k hmem
          show (torch_topk p k).2.getD r 0 < cs.length
          omega
        · show (torch_topk p k).2.getD r 0 < cs.length
          rw [List.getD_eq_default _ _ (by omega)]
          exact hcs
  unfold predict int2char
  exact TextGenAux.getD_mem _ hidx

/-- Every character emitted by the generation loop is a vocabulary
symbol. -/
theorem genLoop_mem {H : Type} (net : Net H) (top_k : Option Nat)
    (rnd : Nat → Nat) (hne : net.chars ≠ [])
    (hfwd : ∀ i h, ((net.forward i h).1).length ≤ net.chars.length) :
    ∀ (size : Nat) (last : Char) (h : H) (t : Nat),
      ∀ c ∈ genLoop net top_k rnd size last h t, c ∈ net.chars := by
  intro size
  induction size with
  | zero => intro last h t c hc; exact absurd hc (by simp [genLoop])
  | succ k ih =>
      intro last h t c hc
      simp only [genLoop, List.mem_cons] at hc
      rcases hc with rfl | hc
      · exact predict_mem _ _ _ _ hne (hfwd _ _)
      · exact ih _ _ _ c hc

/-- The character predicted during the priming pass is a vocabulary
symbol (for a nonempty prime). -/
theorem feedPrime_mem {H : Type} (net : Net H) (top_k : Option Nat)
    (rnd : Nat → Nat) (hne : net.chars ≠ [])
    (hfwd : ∀ i h, ((net.forward i h).1).length ≤ net.chars.length) :
    ∀ (prime : List Char) (h : H) (t : Nat), prime ≠ [] →
      (feedPrime net top_k rnd prime h t).1 ∈ net.chars := by
  intro prime
  induction prime with
  | nil => intro h t hp; exact absurd rfl hp
  | cons c rest ih =>
      intro h t _
      cases rest with
      | nil =>
          show (net_predict net top_k c h (rnd t)).1 ∈ net.chars
          exact predict_mem _ _ _ _ hne (hfwd _ _)
      | cons c2 rest2 =>
          show (feedPrime net top_k rnd (c2 :: rest2)
            (net_predict net top_k c h (rnd t)).2 (t + 1)).1 ∈ net.chars
          exact ih _ _ (by simp)

end TorchModel

/-- C6: every character of the string returned by `sample` is a
vocabulary symbol, provided the priming characters are (for a nonempty
vocabulary whose network step emits an output vector no longer than the
vocabulary). -/
theorem sample_chars_in_vocab {H : Type} (net : TorchModel.Net H)
    (size : Nat) (prime : List Char) (top_k : Option Nat)
    (rnd : Nat → Nat) (hne : net.chars ≠ [])
    (hfwd : ∀ i h, ((net.forward i h).1).length ≤ net.chars.length)
    (hprime : ∀ c ∈ prime, c ∈ net.chars) :
    ∀ c ∈ TorchModel.sample net size prime top_k rnd, c ∈ net.chars := by
  cases prime with
  | nil => intro c hc; exact absurd hc (by simp [TorchModel.sample])
  | cons c0 rest =>
      intro c hc
      simp only [TorchModel.sample, List.mem_append, List.mem_cons] at hc
      rcases hc with hc | rfl | hc
      · exact hprime c (List.mem_cons.2 hc)
      · exact TorchModel.feedPrime_mem net top_k rnd hne hfwd _ _ _
          (by simp)
      · exact TorchModel.genLoop_mem net top_k rnd hne hfwd _ _ _ _ c hc

/-- Witness for C6 on the two-symbol network (on which the source
`sample` actually returns). -/
theorem sample_chars_in_vocab_witness :
    TorchModel.netB.chars ≠ []
  ∧ (∀ (i : Nat) (h : Unit),
      ((TorchModel.netB.forward i h).1).length ≤
        TorchModel.netB.chars.length)
  ∧ (∀ c ∈ ['a'], c ∈ TorchModel.netB.chars)
  ∧ (∀ c ∈ TorchModel.sample TorchModel.netB 2 ['a'] none (fun _ => 0),
      c ∈ TorchModel.netB.chars) :=
  ⟨by decide, fun _ _ => Nat.le_refl 2, by decide,
    sample_chars_in_vocab TorchModel.netB 2 ['a'] none (fun _ => 0)
      (by decide) (fun _ _ => Nat.le_refl 2) (by decide)⟩

/-- C8 (code bug evidence): at the failing input `preds = [1/2, 1/2]`,
`temperature = 1`, the vector the helper hands to
`np.random.multinomial` is the temperature-scaled log-probabilities
`[log(1/2), log(1/2)]` — negative entries, not a probability
distribution — while the distribution the claim (and the computed but
unused `exp_preds`) describes is exactly `[1/2, 1/2]`; the two differ. -/
theorem keras_sample_passes_log_probs :
    LSTM1.sample_pvals [1 / 2, 1 / 2] 1 =
      [Real.log (1 / 2) / 1, Real.log (1 / 2) / 1]
  ∧ Real.log (1 / 2) < 0
  ∧ LSTM1.claimed_dist [1 / 2, 1 / 2] 1 = [1 / 2, 1 / 2]
  ∧ LSTM1.sample_pvals [1 / 2, 1 / 2] 1 ≠
      LSTM1.claimed_dist [1 / 2, 1 / 2] 1 := by
  have hlogneg : Real.log (1 / 2) < 0 :=
    Real.log_neg (by norm_num) (by norm_num)
  have h1 : LSTM1.sample_pvals [1 / 2, 1 / 2] 1 =
      [Real.log (1 / 2) / 1, Real.log (1 / 2) / 1] := by
    simp [LSTM1.sample_pvals]
  have hexp : LSTM1.exp_preds [1 / 2, 1 / 2] 1 = [1 / 2, 1 / 2] := by
    simp [LSTM1.exp_preds, LSTM1.sample_pvals, Real.exp_neg,
      Real.exp_log (by norm_num : (0 : ℝ) < 2)]
  have h3 : LSTM1.claimed_dist [1 / 2, 1 / 2] 1 = [1 / 2, 1 / 2] := by
    unfold LSTM1.claimed_dist
    rw [hexp]
    norm_num
  refine ⟨h1, hlogneg, h3, ?_⟩
  rw [h1, h3]
  intro h
  have hh : Real.log (1 / 2) / 1 = 1 / 2 := by
    have hc := congrArg (fun l => l.getD 0 0) h
    simpa using hc
  rw [div_one] at hh
  linarith
